import Mathlib

/-!
Shallow embedding of the rediff editing core (crates `text`, `cursor`, `editor`)
over buffers represented as `List Char` (one entry per Unicode scalar value,
matching ropey's character-indexed rope), together with proofs about the
addressing, segmentation, cursor-movement and editing operations.
-/

set_option autoImplicit false

namespace Rediff

/-- Model of Rust `char::is_whitespace` (the Unicode White_Space code points). -/
def isWhitespace (c : Char) : Bool :=
  (0x09 ≤ c.val && c.val ≤ 0x0D) || c.val = 0x20 || c.val = 0x85 || c.val = 0xA0 ||
  c.val = 0x1680 || (0x2000 ≤ c.val && c.val ≤ 0x200A) ||
  c.val = 0x2028 || c.val = 0x2029 || c.val = 0x202F || c.val = 0x205F || c.val = 0x3000

/-- Model of Rust `char::is_alphanumeric` (Unicode Alphabetic or Number), rendered
exactly on the ASCII range; Unicode-alphanumeric code points above U+007F are not
enumerated.  No non-ASCII alphanumeric character occurs in the concrete buffers of
this development, and the non-ASCII characters that do occur (U+1F30D, U+1F5FF)
are symbols, classified as non-alphanumeric both by Rust and by this model. -/
def isAlphanumeric (c : Char) : Bool :=
  ('a' ≤ c && c ≤ 'z') || ('A' ≤ c && c ≤ 'Z') || ('0' ≤ c && c ≤ '9')

namespace TextBuffer

/-- Number of newline characters in the buffer. -/
def countNl : List Char → Nat
  | [] => 0
  | c :: l => (if c = '\n' then 1 else 0) + countNl l

/-- ropey `Rope::len_lines`: one more than the number of newline characters. -/
def lenLines (l : List Char) : Nat := countNl l + 1

/-- ropey `Rope::line_to_char`: character index of the first character of line `n`
(saturating at the buffer length once the lines run out, which matches ropey on
every argument the sources pass). -/
def lineToChar : List Char → Nat → Nat
  | _, 0 => 0
  | [], _ + 1 => 0
  | c :: l, n + 1 => (if c = '\n' then lineToChar l n else lineToChar l (n + 1)) + 1

/-- ropey `Rope::char_to_line`: the line containing character index `i`, i.e. the
number of newline characters strictly before `i`. -/
def charToLine (l : List Char) (i : Nat) : Nat := countNl (l.take i)

/-- `TextBuffer::char_to_line_col`. -/
def charToLineCol (l : List Char) (i : Nat) : Nat × Nat :=
  let i' := min i l.length
  let line := charToLine l i'
  let ls := lineToChar l line
  (line, i' - ls)

/-- `TextBuffer::line_col_to_char`. -/
def lineColToChar (l : List Char) (line col : Nat) : Nat :=
  if lenLines l ≤ line then l.length
  else
    let ls := lineToChar l line
    let le := if line + 1 < lenLines l then lineToChar l (line + 1) else l.length
    min (ls + col) le

/-- `TextBuffer::insert`, which forwards to ropey `Rope::insert`; ropey panics when
`index > len_chars()`, and the panic is modelled as `none`. -/
def insert? (l : List Char) (index : Nat) (content : List Char) : Option (List Char) :=
  if index ≤ l.length then some (l.take index ++ content ++ l.drop index) else none

/-- Number of values of `usize` on the 64-bit targets the crate builds for:
`usize::MAX + 1`. -/
def usizeLimit : Nat := 2 ^ 64

/-- `TextBuffer::delete`: computes `end = (index + len).min(len_chars)` in `usize`
arithmetic and calls ropey `Rope::remove (index..end)`, which panics when
`index > end`; the panic is modelled as `none`.  The sum `index + len` is reduced
mod `usizeLimit`, the release-mode wrapping behaviour; a build with overflow checks
panics at the addition instead, which differs from the wrap only when `index = 0`
and the sum overflows (with `0 < index` an overflowed sum wraps below `index` and
`Rope::remove` panics anyway), and no theorem below asserts a `some` result on an
overflowing sum. -/
def delete? (l : List Char) (index len : Nat) : Option (List Char) :=
  let e := min ((index + len) % usizeLimit) l.length
  if index ≤ e then some (l.take index ++ l.drop e) else none

/-- Total in-bounds behaviour of `TextBuffer::delete`; it agrees with `delete?`
whenever `index ≤ l.length` and `index + len` does not overflow `usize`, i.e.
whenever the Rust code does not panic.  The editor operations below invoke it only
with `len ≤ l.length`, far below any overflow. -/
def delete (l : List Char) (index len : Nat) : List Char :=
  l.take index ++ l.drop (min (index + len) l.length)

/-- Total in-bounds behaviour of inserting one character (`rope.insert` of a
one-character string); it agrees with `insert?` whenever `index ≤ l.length`. -/
def insertChar (l : List Char) (index : Nat) (c : Char) : List Char :=
  l.take index ++ c :: l.drop index

/-- Content of line `n` as sliced by ropey `Rope::line`: the character range from
the start of line `n` to the start of line `n + 1` (the trailing newline, when the
line has one, is included). -/
def lineSlice (l : List Char) (n : Nat) : List Char :=
  (l.drop (lineToChar l n)).take (lineToChar l (n + 1) - lineToChar l n)

/-- `TextBuffer::line`. -/
def line? (l : List Char) (n : Nat) : Option (List Char) :=
  if n < lenLines l then some (lineSlice l n) else none

end TextBuffer

/-- Rust `str::trim_end_matches` specialised to the pattern `'\n'`. -/
def trimNlRight (s : List Char) : List Char :=
  (s.reverse.dropWhile (fun c => c = '\n')).reverse

/-- `CursorGoal` from `cursor/src/goal.rs`. -/
inductive CursorGoal
  | none
  | column (c : Nat)
deriving DecidableEq, Repr

/-- The effective target column of `move_up`/`move_down`: the goal's column when
one is set, else the current column. -/
def CursorGoal.resolve : CursorGoal → Nat → Nat
  | CursorGoal.none, col => col
  | CursorGoal.column c, _ => c

/-- `Cursor` from `cursor/src/cursor.rs`. -/
structure Cursor where
  index : Nat
  goal : CursorGoal
deriving DecidableEq, Repr

/-- Display length of line `n` as computed by `move_up`/`move_down`/`move_to_line_end`:
`buffer.line(n).map(|l| l.trim_end_matches('\n').chars().count()).unwrap_or(0)`. -/
def lineDisplayLen (l : List Char) (n : Nat) : Nat :=
  ((TextBuffer.line? l n).map (fun s => (trimNlRight s).length)).getD 0

/-- `Cursor::move_up`. -/
def Cursor.moveUp (cur : Cursor) (l : List Char) : Cursor :=
  let lc := TextBuffer.charToLineCol l cur.index
  let goalCol := cur.goal.resolve lc.2
  if 0 < lc.1 then
    let newLine := lc.1 - 1
    let newCol := min goalCol (lineDisplayLen l newLine)
    { index := TextBuffer.lineColToChar l newLine newCol, goal := CursorGoal.column goalCol }
  else
    { index := 0, goal := CursorGoal.column goalCol }

/-- `Cursor::move_down`. -/
def Cursor.moveDown (cur : Cursor) (l : List Char) : Cursor :=
  let lc := TextBuffer.charToLineCol l cur.index
  let goalCol := cur.goal.resolve lc.2
  if lc.1 < TextBuffer.lenLines l - 1 then
    let newLine := lc.1 + 1
    let newCol := min goalCol (lineDisplayLen l newLine)
    { index := TextBuffer.lineColToChar l newLine newCol, goal := CursorGoal.column goalCol }
  else
    { index := l.length, goal := CursorGoal.column goalCol }

/-- `Cursor::is_word_char`. -/
def Cursor.isWordChar (c : Char) : Bool := isAlphanumeric c || c = '_'

/-- Length of the longest prefix of `s` all of whose characters satisfy `p`. -/
def takeWhileLen (p : Char → Bool) : List Char → Nat
  | [] => 0
  | c :: l => if p c then takeWhileLen p l + 1 else 0

/-- Forward scan `while end < chars.len() && p chars[end] { end += 1 }` started at `e`. -/
def scanFwd (p : Char → Bool) (l : List Char) (e : Nat) : Nat :=
  e + takeWhileLen p (l.drop e)

/-- Backward scan `while 0 < start && p chars[start - 1] { start -= 1 }` started at `s`
(every index the sources probe is in range, so the `getD` default is never read). -/
def scanBack (p : Char → Bool) (l : List Char) : Nat → Nat
  | 0 => 0
  | s + 1 => if p (l.getD s ' ') then scanBack p l s else s + 1

/-- Continuation predicate of the whitespace expansion in `find_word_boundaries`:
whitespace other than a newline. -/
def wsNotNl (c : Char) : Bool := isWhitespace c && !(c = '\n')

/-- Continuation predicate of the word/non-word expansion in `find_word_boundaries`:
not a newline, not whitespace, and of the same word/non-word class as the anchor. -/
def sameClass (w : Bool) (c : Char) : Bool :=
  !(c = '\n') && !(isWhitespace c) && (Cursor.isWordChar c == w)

/-- `Cursor::find_word_boundaries`. -/
def Cursor.findWordBoundaries (l : List Char) (position : Nat) : Nat × Nat :=
  let n := l.length
  let clamped := min position n
  if l.isEmpty then (0, 0)
  else
    let startPos := if clamped = n ∧ 0 < clamped then clamped - 1 else clamped
    if n ≤ startPos then (n, n)
    else
      let c := l.getD startPos ' '
      if c = '\n' then (startPos, startPos + 1)
      else if isWhitespace c then
        (scanBack wsNotNl l startPos, scanFwd wsNotNl l (startPos + 1))
      else
        let w := Cursor.isWordChar c
        (scanBack (sameClass w) l startPos, scanFwd (sameClass w) l startPos)

/-- `Cursor::move_word_left`. -/
def Cursor.moveWordLeft (cur : Cursor) (l : List Char) : Cursor :=
  if cur.index = 0 then { cur with goal := CursorGoal.none }
  else if l.length < cur.index then { index := l.length, goal := CursorGoal.none }
  else if l.isEmpty then { cur with goal := CursorGoal.none }
  else
    let lc := TextBuffer.charToLineCol l cur.index
    let lineStart := TextBuffer.lineColToChar l lc.1 0
    let s := (Cursor.findWordBoundaries l (cur.index - 1)).1
    { index := if 0 < lc.2 then max s lineStart else s, goal := CursorGoal.none }

/-- `Cursor::move_word_right`. -/
def Cursor.moveWordRight (cur : Cursor) (l : List Char) : Cursor :=
  if l.length ≤ cur.index then { cur with goal := CursorGoal.none }
  else
    let lc := TextBuffer.charToLineCol l cur.index
    let lineEndIndex :=
      if lc.1 + 1 < TextBuffer.lenLines l then TextBuffer.lineColToChar l (lc.1 + 1) 0
      else l.length
    let e := (Cursor.findWordBoundaries l cur.index).2
    { index := min e lineEndIndex, goal := CursorGoal.none }

/-- `Selection` from `editor/src/editor.rs`; the Rust field `end` is rendered as
`stop` because `end` is a Lean keyword. -/
structure Selection where
  start : Nat
  stop : Nat
  reversed : Bool
deriving DecidableEq, Repr

/-- `Selection::new`: orders the two endpoints and records the direction. -/
def Selection.new (s e : Nat) : Selection :=
  { start := min s e, stop := max s e, reversed := e < s }

/-- `Editor` from `editor/src/editor.rs`. -/
structure Editor where
  buffer : List Char
  cursor : Cursor
  selection : Option Selection
deriving DecidableEq, Repr

namespace Editor

/-- `Editor::new`. -/
def new : Editor :=
  { buffer := [], cursor := { index := 0, goal := CursorGoal.none }, selection := Option.none }

/-- `Editor::select_range`. -/
def selectRange (ed : Editor) (s e : Nat) : Editor :=
  { ed with selection := some (Selection.new s e) }

/-- `Editor::select_all`. -/
def selectAll (ed : Editor) : Editor :=
  { ed with selection := some (Selection.new 0 ed.buffer.length) }

/-- `Editor::clear_selection`. -/
def clearSelection (ed : Editor) : Editor :=
  { ed with selection := Option.none }

/-- `Editor::get_selected_text`: the selected characters, obtained by
`text.chars().skip(start).take(end - start)`. -/
def getSelectedText (ed : Editor) : Option (List Char) :=
  ed.selection.map (fun sel => (ed.buffer.drop sel.start).take (sel.stop - sel.start))

/-- `Editor::delete_selection`: returns the captured text together with the
resulting editor state. -/
def deleteSelection (ed : Editor) : Option (List Char) × Editor :=
  match ed.selection with
  | some sel =>
      (ed.getSelectedText,
       { buffer := TextBuffer.delete ed.buffer sel.start (sel.stop - sel.start),
         cursor := { ed.cursor with index := sel.start },
         selection := Option.none })
  | Option.none => (Option.none, ed)

/-- `Editor::insert_char` (total in-bounds behaviour; the underlying ropey insert
panics when `cursor.index > buffer.len()`, see `TextBuffer.insert?`). -/
def insertChar (ed : Editor) (c : Char) : Editor :=
  { buffer := TextBuffer.insertChar ed.buffer ed.cursor.index c,
    cursor := { ed.cursor with index := ed.cursor.index + 1 },
    selection := ed.selection }

/-- `Editor::backspace`. -/
def backspace (ed : Editor) : Editor :=
  if 0 < ed.cursor.index then
    { buffer := TextBuffer.delete ed.buffer (ed.cursor.index - 1) 1,
      cursor := { ed.cursor with index := ed.cursor.index - 1 },
      selection := ed.selection }
  else ed

/-- `Editor::delete_word`. -/
def deleteWord (ed : Editor) : Editor :=
  if ed.cursor.index = 0 then ed
  else
    let startIndex := ed.cursor.index
    let lc := TextBuffer.charToLineCol ed.buffer startIndex
    let lineStart := TextBuffer.lineColToChar ed.buffer lc.1 0
    let cur2 := ed.cursor.moveWordLeft ed.buffer
    let endIndex := cur2.index
    let deleteFrom := if lc.2 = 0 then endIndex else max endIndex lineStart
    let count := startIndex - deleteFrom
    { buffer := TextBuffer.delete ed.buffer deleteFrom count,
      cursor := { cur2 with index := deleteFrom },
      selection := ed.selection }

/-- `Editor::delete_line`. -/
def deleteLine (ed : Editor) : Editor :=
  let lc := TextBuffer.charToLineCol ed.buffer ed.cursor.index
  let lineStart := TextBuffer.lineColToChar ed.buffer lc.1 0
  let lineContent := (TextBuffer.line? ed.buffer lc.1).getD []
  { buffer := TextBuffer.delete ed.buffer lineStart lineContent.length,
    cursor := { ed.cursor with index := lineStart },
    selection := ed.selection }

/-- `Editor::paste` (total in-bounds behaviour via `insertChar`). -/
def paste (ed : Editor) (text : List Char) : Editor :=
  let ed1 := if ed.selection.isSome then (ed.deleteSelection).2 else ed
  text.foldl (fun e c => e.insertChar c) ed1

end Editor

/-! Lemmas about newline counting and line starts. -/

namespace TextBuffer

theorem countNl_cons (c : Char) (t : List Char) :
    countNl (c :: t) = (if c = '\n' then 1 else 0) + countNl t := rfl

theorem lineToChar_cons_succ (c : Char) (t : List Char) (n : Nat) :
    lineToChar (c :: t) (n + 1) =
      (if c = '\n' then lineToChar t n else lineToChar t (n + 1)) + 1 := rfl

theorem countNl_append (a b : List Char) : countNl (a ++ b) = countNl a + countNl b := by
  induction a with
  | nil => simp [countNl]
  | cons c t ih => simp only [List.cons_append, countNl_cons, ih]; omega

theorem countNl_take_le (l : List Char) (i : Nat) : countNl (l.take i) ≤ countNl l := by
  conv_rhs => rw [← List.take_append_drop i l]
  rw [countNl_append]; omega

theorem countNl_take_mono (l : List Char) {i j : Nat} (h : i ≤ j) :
    countNl (l.take i) ≤ countNl (l.take j) := by
  have he : l.take i = (l.take j).take i := by
    rw [List.take_take, Nat.min_eq_left h]
  rw [he]; exact countNl_take_le _ _

theorem countNl_take_succ (l : List Char) {i : Nat} (h : i < l.length) :
    countNl (l.take (i + 1)) =
      countNl (l.take i) + (if l.getD i ' ' = '\n' then 1 else 0) := by
  rw [List.take_succ, countNl_append, List.getD_eq_getElem?_getD, List.getElem?_eq_getElem h]
  simp [countNl]

theorem lineToChar_zero (l : List Char) : lineToChar l 0 = 0 := by
  cases l <;> rfl

theorem lineToChar_le_len (l : List Char) (n : Nat) : lineToChar l n ≤ l.length := by
  induction l generalizing n with
  | nil => cases n <;> simp [lineToChar]
  | cons c t ih =>
    cases n with
    | zero => simp [lineToChar]
    | succ m =>
      simp only [lineToChar, List.length_cons]
      split
      · have := ih m; omega
      · have := ih (m + 1); omega

theorem lineToChar_mono (l : List Char) {m n : Nat} (h : m ≤ n) :
    lineToChar l m ≤ lineToChar l n := by
  induction l generalizing m n with
  | nil => cases m <;> cases n <;> simp [lineToChar] at *
  | cons c t ih =>
    cases m with
    | zero => rw [lineToChar_zero]; exact Nat.zero_le _
    | succ m' =>
      cases n with
      | zero => omega
      | succ n' =>
        simp only [lineToChar]
        split
        · have := ih (show m' ≤ n' by omega); omega
        · have := ih (show m' + 1 ≤ n' + 1 by omega); omega

theorem lineToChar_succ_spec (l : List Char) {n : Nat} (h : n < countNl l) :
    ∃ k, lineToChar l (n + 1) = k + 1 ∧ countNl (l.take k) = n ∧ l.getD k ' ' = '\n' := by
  induction l generalizing n with
  | nil => simp [countNl] at h
  | cons c t ih =>
    by_cases hc : c = '\n'
    · subst hc
      cases n with
      | zero =>
        refine ⟨0, ?_, ?_, ?_⟩
        · simp [lineToChar, lineToChar_zero]
        · simp [countNl]
        · simp [List.getD]
      | succ m =>
        have hm : m < countNl t := by simp [countNl_cons] at h; omega
        obtain ⟨k', h1, h2, h3⟩ := ih hm
        refine ⟨k' + 1, ?_, ?_, ?_⟩
        · simp [lineToChar_cons_succ, h1]
        · simp [List.take_succ_cons, countNl_cons, h2]; omega
        · simpa [List.getD] using h3
    · have hn : n < countNl t := by simp [countNl_cons, hc] at h; omega
      obtain ⟨k', h1, h2, h3⟩ := ih hn
      refine ⟨k' + 1, ?_, ?_, ?_⟩
      · simp [lineToChar_cons_succ, hc, h1]
      · simp [List.take_succ_cons, countNl_cons, hc, h2]
      · simpa [List.getD] using h3

theorem lineToChar_saturate (l : List Char) : lineToChar l (countNl l + 1) = l.length := by
  induction l with
  | nil => rfl
  | cons c t ih =>
    by_cases hc : c = '\n'
    · subst hc
      have hce : countNl ('\n' :: t) + 1 = (countNl t + 1) + 1 := by
        rw [countNl_cons, if_pos rfl]; omega
      rw [hce, lineToChar_cons_succ, if_pos rfl, ih]
      simp
    · have hce : countNl (c :: t) + 1 = countNl t + 1 := by
        rw [countNl_cons, if_neg hc]; omega
      rw [hce, lineToChar_cons_succ, if_neg hc, ih]
      simp

theorem countNl_take_lineToChar (l : List Char) {n : Nat} (h : n ≤ countNl l) :
    countNl (l.take (lineToChar l n)) = n := by
  induction l generalizing n with
  | nil =>
    simp [countNl] at h
    subst h
    simp [lineToChar, countNl]
  | cons c t ih =>
    cases n with
    | zero => simp [lineToChar_zero, countNl]
    | succ m =>
      by_cases hc : c = '\n'
      · subst hc
        have hm : m ≤ countNl t := by simp [countNl_cons] at h; omega
        have hih := ih hm
        rw [lineToChar_cons_succ, if_pos rfl, List.take_succ_cons, countNl_cons, if_pos rfl, hih]
        omega
      · have hm : m + 1 ≤ countNl t := by simp [countNl_cons, hc] at h; omega
        have hih := ih hm
        rw [lineToChar_cons_succ, if_neg hc, List.take_succ_cons, countNl_cons, if_neg hc, hih]
        omega

theorem lineStart_le (l : List Char) {i : Nat} (h : i ≤ l.length) :
    lineToChar l (countNl (l.take i)) ≤ i := by
  induction l generalizing i with
  | nil =>
    have : i = 0 := by simpa using h
    subst this
    simp [lineToChar, countNl]
  | cons c t ih =>
    cases i with
    | zero => simp [lineToChar_zero, countNl]
    | succ j =>
      have hj : j ≤ t.length := by simpa using h
      have hih := ih hj
      rw [List.take_succ_cons, countNl_cons]
      by_cases hc : c = '\n'
      · rw [if_pos hc]
        have h1 : 1 + countNl (t.take j) = countNl (t.take j) + 1 := by omega
        rw [h1, lineToChar_cons_succ, if_pos hc]
        omega
      · rw [if_neg hc, Nat.zero_add]
        cases hn : countNl (t.take j) with
        | zero => rw [lineToChar_zero]; omega
        | succ m =>
          rw [hn] at hih
          rw [lineToChar_cons_succ, if_neg hc]
          omega

theorem lt_lineToChar_succ (l : List Char) {i : Nat} (h1 : i ≤ l.length)
    (h2 : countNl (l.take i) < countNl l) :
    i < lineToChar l (countNl (l.take i) + 1) := by
  obtain ⟨k, hk1, hk2, hk3⟩ := lineToChar_succ_spec l h2
  rw [hk1]
  by_contra hlt
  have hki : k + 1 ≤ i := by omega
  have hklen : k < l.length := by omega
  have hs := countNl_take_succ l hklen
  rw [hk2, if_pos hk3] at hs
  have := countNl_take_mono l hki
  omega

theorem countNl_drop_last (l : List Char) :
    countNl (l.drop (lineToChar l (countNl l))) = 0 := by
  have h := countNl_append (l.take (lineToChar l (countNl l))) (l.drop (lineToChar l (countNl l)))
  rw [List.take_append_drop] at h
  rw [countNl_take_lineToChar l (Nat.le_refl _)] at h
  omega

theorem charToLineCol_fst (l : List Char) {i : Nat} (h : i ≤ l.length) :
    (charToLineCol l i).1 = countNl (l.take i) := by
  simp [charToLineCol, charToLine, Nat.min_eq_left h]

theorem charToLineCol_snd (l : List Char) {i : Nat} (h : i ≤ l.length) :
    (charToLineCol l i).2 = i - lineToChar l (countNl (l.take i)) := by
  simp [charToLineCol, charToLine, Nat.min_eq_left h]

theorem lineColToChar_eq_of_lt (l : List Char) {n : Nat} (h : n < countNl l) (col : Nat) :
    lineColToChar l n col = min (lineToChar l n + col) (lineToChar l (n + 1)) := by
  have h1 : ¬ lenLines l ≤ n := by unfold lenLines; omega
  have h2 : n + 1 < lenLines l := by unfold lenLines; omega
  simp [lineColToChar, h1, h2]

theorem lineColToChar_eq_last (l : List Char) (col : Nat) :
    lineColToChar l (countNl l) col = min (lineToChar l (countNl l) + col) l.length := by
  have h1 : ¬ lenLines l ≤ countNl l := by unfold lenLines; omega
  have h2 : ¬ countNl l + 1 < lenLines l := by unfold lenLines; omega
  simp [lineColToChar, h1, h2]

theorem countNl_reverse (l : List Char) : countNl l.reverse = countNl l := by
  induction l with
  | nil => rfl
  | cons c t ih =>
    rw [List.reverse_cons, countNl_append, ih, countNl_cons, countNl_cons]
    simp [countNl]
    omega

theorem lineSlice_last (l : List Char) :
    lineSlice l (countNl l) = l.drop (lineToChar l (countNl l)) := by
  unfold lineSlice
  rw [lineToChar_saturate]
  have hlen : (l.drop (lineToChar l (countNl l))).length
      = l.length - lineToChar l (countNl l) := List.length_drop _ _
  rw [← hlen, List.take_length]

theorem trimNlRight_of_no_nl {s : List Char} (h : countNl s = 0) : trimNlRight s = s := by
  unfold trimNlRight
  cases hr : s.reverse with
  | nil =>
    have hs : s = [] := by simpa using congrArg List.reverse hr
    subst hs
    simp
  | cons c t =>
    have hs : s = (c :: t).reverse := by
      have := congrArg List.reverse hr
      simpa using this
    have hrev : countNl (c :: t) = 0 := by
      rw [← hr, countNl_reverse, h]
    have hc : ¬ c = '\n' := by
      intro hcc
      rw [countNl_cons, if_pos hcc] at hrev
      omega
    have hdw : List.dropWhile (fun ch => decide (ch = '\n')) (c :: t) = c :: t := by
      rw [List.dropWhile_cons]
      simp [hc]
    rw [hdw, hs]

theorem trimNlRight_append_nl (xs : List Char) :
    trimNlRight (xs ++ ['\n']) = trimNlRight xs := by
  unfold trimNlRight
  rw [List.reverse_append]
  simp [List.dropWhile_cons]

theorem lineSlice_of_lt (l : List Char) {n : Nat} (h : n < countNl l) :
    ∃ mid, lineSlice l n = mid ++ ['\n'] ∧ countNl mid = 0 ∧
      lineToChar l (n + 1) = lineToChar l n + mid.length + 1 := by
  obtain ⟨k, hk1, hk2, hk3⟩ := lineToChar_succ_spec l h
  have hklen : k < l.length := by
    have := lineToChar_le_len l (n + 1); omega
  have hnle : n ≤ countNl l := by omega
  have hsk : lineToChar l n ≤ k := by
    by_contra hlt
    have hk1s : k + 1 ≤ lineToChar l n := by omega
    have hmono := countNl_take_mono l hk1s
    have hsucc := countNl_take_succ l hklen
    rw [hk2, if_pos hk3] at hsucc
    rw [countNl_take_lineToChar l hnle] at hmono
    omega
  refine ⟨(l.drop (lineToChar l n)).take (k - lineToChar l n), ?_, ?_, ?_⟩
  · unfold lineSlice
    have hsplit : lineToChar l (n + 1) - lineToChar l n = (k - lineToChar l n) + 1 := by omega
    rw [hsplit, List.take_succ, List.getElem?_drop]
    have hidx : lineToChar l n + (k - lineToChar l n) = k := by omega
    rw [hidx, List.getElem?_eq_getElem hklen]
    have hget : l[k] = '\n' := by
      have := List.getD_eq_getElem?_getD l k ' '
      rw [List.getElem?_eq_getElem hklen] at this
      rw [hk3] at this
      exact (Option.getD_some ▸ this).symm
    rw [hget]
    rfl
  · have htk : l.take k = l.take (lineToChar l n) ++ (l.drop (lineToChar l n)).take (k - lineToChar l n) := by
      have : k = lineToChar l n + (k - lineToChar l n) := by omega
      rw [this, List.take_add]
      simp
    have hcnt := congrArg countNl htk
    rw [countNl_append, countNl_take_lineToChar l hnle, hk2] at hcnt
    omega
  · have hmidlen : ((l.drop (lineToChar l n)).take (k - lineToChar l n)).length
        = k - lineToChar l n := by
      rw [List.length_take, List.length_drop]
      omega
    rw [hmidlen]
    omega

theorem lineDisplayLen_of_lt (l : List Char) {n : Nat} (h : n < countNl l) :
    lineToChar l (n + 1) = lineToChar l n + lineDisplayLen l n + 1 := by
  obtain ⟨mid, hm1, hm2, hm3⟩ := lineSlice_of_lt l h
  have hline : line? l n = some (lineSlice l n) := by
    unfold line? lenLines
    rw [if_pos (by omega)]
  unfold lineDisplayLen
  rw [hline, hm1]
  simp only [Option.map_some', Option.getD_some]
  rw [trimNlRight_append_nl, trimNlRight_of_no_nl hm2]
  exact hm3

theorem lineDisplayLen_last (l : List Char) :
    l.length = lineToChar l (countNl l) + lineDisplayLen l (countNl l) := by
  have hline : line? l (countNl l) = some (lineSlice l (countNl l)) := by
    unfold line? lenLines
    rw [if_pos (by omega)]
  unfold lineDisplayLen
  rw [hline]
  simp only [Option.map_some', Option.getD_some]
  rw [lineSlice_last, trimNlRight_of_no_nl (countNl_drop_last l), List.length_drop]
  have := lineToChar_le_len l (countNl l)
  omega

theorem lineColToChar_charToLineCol (l : List Char) {i : Nat} (h : i ≤ l.length) :
    lineColToChar l (charToLineCol l i).1 (charToLineCol l i).2 = i := by
  rw [charToLineCol_fst l h, charToLineCol_snd l h]
  have hnle := countNl_take_le l i
  have hls := lineStart_le l h
  rcases Nat.lt_or_ge (countNl (l.take i)) (countNl l) with hlt | hge
  · rw [lineColToChar_eq_of_lt l hlt]
    have h2 := lt_lineToChar_succ l h hlt
    omega
  · have heq : countNl (l.take i) = countNl l := by omega
    rw [heq]
    rw [heq] at hls
    rw [lineColToChar_eq_last]
    omega

theorem charToLineCol_lineColToChar (l : List Char) {n c : Nat} (hn : n ≤ countNl l)
    (hc : c ≤ lineDisplayLen l n) :
    charToLineCol l (lineColToChar l n c) = (n, c) := by
  rcases Nat.lt_or_ge n (countNl l) with hlt | hge
  · have he := lineDisplayLen_of_lt l hlt
    rw [lineColToChar_eq_of_lt l hlt]
    have hmin : min (lineToChar l n + c) (lineToChar l (n + 1)) = lineToChar l n + c := by
      omega
    rw [hmin]
    have hi : lineToChar l n + c ≤ l.length := by
      have := lineToChar_le_len l (n + 1); omega
    obtain ⟨k, hk1, hk2, hk3⟩ := lineToChar_succ_spec l hlt
    have hlow : countNl (l.take (lineToChar l n)) = n := countNl_take_lineToChar l hn
    have hmono1 := countNl_take_mono l (show lineToChar l n ≤ lineToChar l n + c by omega)
    have hmono2 := countNl_take_mono l (show lineToChar l n + c ≤ k by omega)
    rw [hk2] at hmono2
    rw [hlow] at hmono1
    have hline : countNl (l.take (lineToChar l n + c)) = n := by omega
    have hfst := charToLineCol_fst l hi
    have hsnd := charToLineCol_snd l hi
    rw [hline] at hfst hsnd
    have hpair : charToLineCol l (lineToChar l n + c)
        = ((charToLineCol l (lineToChar l n + c)).1, (charToLineCol l (lineToChar l n + c)).2) := rfl
    rw [hpair, hfst, hsnd]
    have hcol : lineToChar l n + c - lineToChar l n = c := by omega
    rw [hcol]
  · have heq : n = countNl l := by omega
    subst heq
    have hd := lineDisplayLen_last l
    rw [lineColToChar_eq_last]
    have hmin : min (lineToChar l (countNl l) + c) l.length
        = lineToChar l (countNl l) + c := by omega
    rw [hmin]
    have hi : lineToChar l (countNl l) + c ≤ l.length := by omega
    have hlow : countNl (l.take (lineToChar l (countNl l))) = countNl l :=
      countNl_take_lineToChar l (Nat.le_refl _)
    have hmono1 := countNl_take_mono l
      (show lineToChar l (countNl l) ≤ lineToChar l (countNl l) + c by omega)
    have hup := countNl_take_le l (lineToChar l (countNl l) + c)
    rw [hlow] at hmono1
    have hline : countNl (l.take (lineToChar l (countNl l) + c)) = countNl l := by omega
    have hfst := charToLineCol_fst l hi
    have hsnd := charToLineCol_snd l hi
    rw [hline] at hfst hsnd
    have hpair : charToLineCol l (lineToChar l (countNl l) + c)
        = ((charToLineCol l (lineToChar l (countNl l) + c)).1,
           (charToLineCol l (lineToChar l (countNl l) + c)).2) := rfl
    rw [hpair, hfst, hsnd]
    have hcol : lineToChar l (countNl l) + c - lineToChar l (countNl l) = c := by omega
    rw [hcol]

end TextBuffer


/-! Claim theorems about the buffer layer and the basic editing operations. -/

/-- C1: for every buffer and every character offset `i` in `[0, len]`, composing the
two addressing functions is the identity: `line_col_to_char` applied to the
`(line, col)` pair returned by `char_to_line_col i` returns exactly `i`. -/
theorem C1_addressing_round_trip (l : List Char) (i : Nat) (h : i ≤ l.length) :
    TextBuffer.lineColToChar l (TextBuffer.charToLineCol l i).1
      (TextBuffer.charToLineCol l i).2 = i :=
  TextBuffer.lineColToChar_charToLineCol l h

/-- Witness for C1 at the buffer `"Line 1\nLine 2\nLine 3\n"` and offset 9. -/
theorem C1_addressing_round_trip_witness :
    9 ≤ ("Line 1\nLine 2\nLine 3\n").toList.length ∧
    TextBuffer.lineColToChar ("Line 1\nLine 2\nLine 3\n").toList
      (TextBuffer.charToLineCol ("Line 1\nLine 2\nLine 3\n").toList 9).1
      (TextBuffer.charToLineCol ("Line 1\nLine 2\nLine 3\n").toList 9).2 = 9 :=
  ⟨by decide, C1_addressing_round_trip ("Line 1\nLine 2\nLine 3\n").toList 9 (by decide)⟩

/-- C2 counterexample: `TextBuffer::insert` and `TextBuffer::delete` are not total and
do not clamp the index: on the one-character buffer `" "`, both `insert(2, "x")` and
`delete(2, 1)` hit a ropey panic (modelled as `none`) instead of clamping the index
to the buffer length; and on `"ab"`, `delete(1, usize::MAX)` overflows the `usize`
sum `index + len` and panics instead of truncating the length to the available tail. -/
theorem C2_not_total_counterexample :
    TextBuffer.insert? [' '] 2 ['x'] = Option.none ∧
    TextBuffer.delete? [' '] 2 1 = Option.none ∧
    TextBuffer.delete? ['a', 'b'] 1 (TextBuffer.usizeLimit - 1) = Option.none := by
  exact ⟨by decide, by decide, by decide⟩

/-- C2 amended: `insert` succeeds whenever `index ≤ len`; `delete` truncates an
overlong length to the available tail and succeeds whenever `index ≤ len` and the
`usize` sum `index + len` does not overflow; but an index beyond the buffer length is
not clamped — both operations panic (`none`) when `index > len` — and `delete` with a
positive index also panics when `index + len` overflows `usize`. -/
theorem C2_insert_delete_amended (l : List Char) (i n : Nat) (s : List Char) :
    (i ≤ l.length → TextBuffer.insert? l i s = some (l.take i ++ s ++ l.drop i)) ∧
    (l.length < i → TextBuffer.insert? l i s = Option.none) ∧
    (i ≤ l.length → i + n < TextBuffer.usizeLimit →
      TextBuffer.delete? l i n = some (l.take i ++ l.drop (min (i + n) l.length))) ∧
    (l.length < i → TextBuffer.delete? l i n = Option.none) ∧
    (0 < i → i < TextBuffer.usizeLimit → n < TextBuffer.usizeLimit → TextBuffer.usizeLimit ≤ i + n →
      TextBuffer.delete? l i n = Option.none) := by
  refine ⟨fun h => ?_, fun h => ?_, fun h hov => ?_, fun h => ?_, fun h0 hi hn hov => ?_⟩
  · unfold TextBuffer.insert?
    rw [if_pos h]
  · unfold TextBuffer.insert?
    rw [if_neg (by omega)]
  · simp only [TextBuffer.delete?]
    rw [Nat.mod_eq_of_lt hov,
      if_pos (show i ≤ min (i + n) l.length by omega)]
  · simp only [TextBuffer.delete?]
    have hmod : (i + n) % TextBuffer.usizeLimit ≤ i + n := Nat.mod_le _ _
    rw [if_neg (show ¬ i ≤ min ((i + n) % TextBuffer.usizeLimit) l.length by omega)]
  · simp only [TextBuffer.delete?]
    have hwrap : (i + n) % TextBuffer.usizeLimit = i + n - TextBuffer.usizeLimit := by
      rw [Nat.mod_eq_sub_mod hov]
      exact Nat.mod_eq_of_lt (by omega)
    rw [hwrap, if_neg (show ¬ i ≤ min (i + n - TextBuffer.usizeLimit) l.length by omega)]

/-- Witness for C2's amended statement: in-bounds insert and delete succeed on
concrete buffers, an out-of-bounds index makes both panic, and an overflowing
`index + len` makes delete panic. -/
theorem C2_insert_delete_amended_witness :
    TextBuffer.insert? ['a'] 1 ['b'] = some ['a', 'b'] ∧
    TextBuffer.insert? ['a'] 2 ['b'] = Option.none ∧
    TextBuffer.delete? ['a', 'b', 'c'] 1 5 = some ['a'] ∧
    TextBuffer.delete? ['a'] 2 0 = Option.none ∧
    TextBuffer.delete? ['a', 'b'] 1 (TextBuffer.usizeLimit - 1) = Option.none := by
  refine ⟨?_, ?_, ?_, ?_, ?_⟩
  · rw [(C2_insert_delete_amended ['a'] 1 0 ['b']).1 (by decide)]
    decide
  · exact (C2_insert_delete_amended ['a'] 2 0 ['b']).2.1 (by decide)
  · rw [(C2_insert_delete_amended ['a', 'b', 'c'] 1 5 []).2.2.1 (by decide) (by decide)]
    decide
  · exact (C2_insert_delete_amended ['a'] 2 0 []).2.2.2.1 (by decide)
  · exact (C2_insert_delete_amended ['a', 'b'] 1 (TextBuffer.usizeLimit - 1) []).2.2.2.2 (by decide)
      (by decide) (by decide) (by decide)

/-- C9: for a cursor within bounds, `insert_char ch` does not panic, produces the old
buffer with `ch` inserted at character offset `cursor.index`, and advances
`cursor.index` by exactly one character (never by a byte count: the buffer model
counts Unicode scalar values). -/
theorem C9_insert_char (ed : Editor) (c : Char)
    (h : ed.cursor.index ≤ ed.buffer.length) :
    TextBuffer.insert? ed.buffer ed.cursor.index [c] = some ((ed.insertChar c).buffer) ∧
    (ed.insertChar c).buffer
      = ed.buffer.take ed.cursor.index ++ c :: ed.buffer.drop ed.cursor.index ∧
    (ed.insertChar c).cursor.index = ed.cursor.index + 1 := by
  refine ⟨?_, rfl, rfl⟩
  unfold TextBuffer.insert?
  rw [if_pos h]
  show some (_ ++ [c] ++ _) = some (TextBuffer.insertChar ed.buffer ed.cursor.index c)
  unfold TextBuffer.insertChar
  rw [List.append_assoc, List.singleton_append]

/-- Witness for C9: inserting the multi-byte scalar U+1F30D into `"ab"` at index 1
advances the cursor to 2, one character, not four bytes. -/
theorem C9_insert_char_witness :
    (Editor.insertChar ⟨['a', 'b'], ⟨1, CursorGoal.none⟩, Option.none⟩ '🌍').buffer
        = ['a', '🌍', 'b'] ∧
    (Editor.insertChar ⟨['a', 'b'], ⟨1, CursorGoal.none⟩, Option.none⟩ '🌍').cursor.index = 2 := by
  have h := C9_insert_char ⟨['a', 'b'], ⟨1, CursorGoal.none⟩, Option.none⟩ '🌍' (by decide)
  refine ⟨?_, ?_⟩
  · rw [h.2.1]
    decide
  · rw [h.2.2]

/-- C8: `delete_selection` on a well-formed selection `[start, stop)` returns the
selected text, removes exactly that character range, puts the cursor at `start` and
clears the selection; with no selection it returns `none` and changes nothing. -/
theorem C8_delete_selection (ed : Editor) :
    (∀ sel : Selection, ed.selection = some sel → sel.start ≤ sel.stop →
        sel.stop ≤ ed.buffer.length →
      (ed.deleteSelection).1
          = some ((ed.buffer.drop sel.start).take (sel.stop - sel.start)) ∧
      (ed.deleteSelection).2.buffer = ed.buffer.take sel.start ++ ed.buffer.drop sel.stop ∧
      (ed.deleteSelection).2.cursor.index = sel.start ∧
      (ed.deleteSelection).2.selection = Option.none) ∧
    (ed.selection = Option.none → ed.deleteSelection = (Option.none, ed)) := by
  constructor
  · intro sel hsel h1 h2
    have hds : ed.deleteSelection
        = (ed.getSelectedText,
           { buffer := TextBuffer.delete ed.buffer sel.start (sel.stop - sel.start),
             cursor := { ed.cursor with index := sel.start },
             selection := Option.none }) := by
      unfold Editor.deleteSelection
      rw [hsel]
    rw [hds]
    refine ⟨?_, ?_, rfl, rfl⟩
    · unfold Editor.getSelectedText
      rw [hsel]
      rfl
    · show TextBuffer.delete ed.buffer sel.start (sel.stop - sel.start) = _
      unfold TextBuffer.delete
      have hmin : min (sel.start + (sel.stop - sel.start)) ed.buffer.length = sel.stop := by
        omega
      rw [hmin]
  · intro hnone
    unfold Editor.deleteSelection
    rw [hnone]

/-- Witness for C8: deleting the selection `[0, 5)` from `"Hello World"` captures
`"Hello"`, leaves `" World"`, and an editor without a selection is unchanged. -/
theorem C8_delete_selection_witness :
    (Editor.deleteSelection ⟨("Hello World").toList, ⟨11, CursorGoal.none⟩,
        some ⟨0, 5, false⟩⟩).1 = some (("Hello").toList) ∧
    (Editor.deleteSelection ⟨("Hello World").toList, ⟨11, CursorGoal.none⟩,
        some ⟨0, 5, false⟩⟩).2.buffer = (" World").toList ∧
    Editor.deleteSelection ⟨("Hi").toList, ⟨0, CursorGoal.none⟩, Option.none⟩
        = (Option.none, ⟨("Hi").toList, ⟨0, CursorGoal.none⟩, Option.none⟩) := by
  have h := (C8_delete_selection ⟨("Hello World").toList, ⟨11, CursorGoal.none⟩,
      some ⟨0, 5, false⟩⟩).1 ⟨0, 5, false⟩ rfl (by decide) (by decide)
  refine ⟨?_, ?_, ?_⟩
  · rw [h.1]
    decide
  · rw [h.2.1]
    decide
  · exact (C8_delete_selection ⟨("Hi").toList, ⟨0, CursorGoal.none⟩, Option.none⟩).2 rfl


/-! Lemmas about the scanning loops of `find_word_boundaries`. -/

theorem takeWhileLen_cons (p : Char → Bool) (c : Char) (t : List Char) :
    takeWhileLen p (c :: t) = if p c = true then takeWhileLen p t + 1 else 0 := rfl

theorem scanBack_succ_eq (p : Char → Bool) (l : List Char) (s : Nat) :
    scanBack p l (s + 1) = if p (l.getD s ' ') = true then scanBack p l s else s + 1 := rfl

theorem takeWhileLen_le (p : Char → Bool) (xs : List Char) :
    takeWhileLen p xs ≤ xs.length := by
  induction xs with
  | nil => simp [takeWhileLen]
  | cons c t ih =>
    unfold takeWhileLen
    split
    · simpa using ih
    · simp

theorem takeWhileLen_pred (p : Char → Bool) (xs : List Char) {i : Nat}
    (h : i < takeWhileLen p xs) : p (xs.getD i ' ') = true := by
  induction xs generalizing i with
  | nil => simp [takeWhileLen] at h
  | cons c t ih =>
    rw [takeWhileLen_cons] at h
    by_cases hp : p c = true
    · rw [if_pos hp] at h
      cases i with
      | zero => rw [List.getD_cons_zero]; exact hp
      | succ j =>
        rw [List.getD_cons_succ]
        exact ih (by omega)
    · rw [if_neg hp] at h
      omega

theorem takeWhileLen_stop (p : Char → Bool) (xs : List Char)
    (h : takeWhileLen p xs < xs.length) :
    p (xs.getD (takeWhileLen p xs) ' ') = false := by
  induction xs with
  | nil => simp at h
  | cons c t ih =>
    by_cases hp : p c = true
    · have he : takeWhileLen p (c :: t) = takeWhileLen p t + 1 := by
        rw [takeWhileLen_cons, if_pos hp]
      rw [he] at h
      rw [he, List.getD_cons_succ]
      exact ih (by simpa using h)
    · have he : takeWhileLen p (c :: t) = 0 := by
        rw [takeWhileLen_cons, if_neg hp]
      rw [he, List.getD_cons_zero]
      rw [Bool.not_eq_true] at hp
      exact hp

theorem takeWhileLen_cons_true {p : Char → Bool} {c : Char} (xs : List Char)
    (h : p c = true) : takeWhileLen p (c :: xs) = takeWhileLen p xs + 1 := by
  rw [takeWhileLen_cons, if_pos h]

theorem getD_drop (l : List Char) (e i : Nat) :
    (l.drop e).getD i ' ' = l.getD (e + i) ' ' := by
  rw [List.getD_eq_getElem?_getD, List.getD_eq_getElem?_getD, List.getElem?_drop]

theorem scanFwd_ge (p : Char → Bool) (l : List Char) (e : Nat) : e ≤ scanFwd p l e := by
  unfold scanFwd; omega

theorem scanFwd_le (p : Char → Bool) (l : List Char) {e : Nat} (h : e ≤ l.length) :
    scanFwd p l e ≤ l.length := by
  unfold scanFwd
  have h2 := takeWhileLen_le p (l.drop e)
  rw [List.length_drop] at h2
  omega

theorem scanFwd_pred (p : Char → Bool) (l : List Char) {e i : Nat} (h1 : e ≤ i)
    (h2 : i < scanFwd p l e) : p (l.getD i ' ') = true := by
  unfold scanFwd at h2
  have hj : i - e < takeWhileLen p (l.drop e) := by omega
  have h3 := takeWhileLen_pred p (l.drop e) hj
  rw [getD_drop] at h3
  have he : e + (i - e) = i := by omega
  rw [he] at h3
  exact h3

theorem scanFwd_stop (p : Char → Bool) (l : List Char) {e : Nat}
    (h : scanFwd p l e < l.length) : p (l.getD (scanFwd p l e) ' ') = false := by
  have hge := scanFwd_ge p l e
  unfold scanFwd at h ⊢
  have hlt : takeWhileLen p (l.drop e) < (l.drop e).length := by
    rw [List.length_drop]; omega
  have h3 := takeWhileLen_stop p (l.drop e) hlt
  rw [getD_drop] at h3
  exact h3

theorem scanFwd_step (p : Char → Bool) (l : List Char) {e : Nat} (h1 : e < l.length)
    (h2 : p (l.getD e ' ') = true) : scanFwd p l e = scanFwd p l (e + 1) := by
  unfold scanFwd
  have hdrop : l.drop e = l.getD e ' ' :: l.drop (e + 1) := by
    rw [List.drop_eq_getElem_cons h1]
    congr 1
    rw [List.getD_eq_getElem?_getD, List.getElem?_eq_getElem h1]
    rfl
  rw [hdrop, takeWhileLen_cons_true _ h2]
  omega

theorem scanFwd_congr (p : Char → Bool) (l : List Char) {e q : Nat} (h1 : e ≤ q)
    (h2 : q ≤ l.length) (h3 : ∀ i, e ≤ i → i < q → p (l.getD i ' ') = true) :
    scanFwd p l e = scanFwd p l q := by
  induction q, h1 using Nat.le_induction with
  | base => rfl
  | succ n hn ih =>
    have h4 : scanFwd p l e = scanFwd p l n :=
      ih (by omega) (fun i hi1 hi2 => h3 i hi1 (by omega))
    rw [h4]
    exact scanFwd_step p l (by omega) (h3 n hn (by omega))

theorem scanFwd_fix (p : Char → Bool) (l : List Char) {e : Nat}
    (h : l.length ≤ e ∨ p (l.getD e ' ') = false) : scanFwd p l e = e := by
  unfold scanFwd
  rcases h with h | h
  · rw [List.drop_eq_nil_of_le h]
    simp [takeWhileLen]
  · cases hd : l.drop e with
    | nil => simp [takeWhileLen]
    | cons c t =>
      have hlen : e < l.length := by
        by_contra hh
        rw [List.drop_eq_nil_of_le (by omega)] at hd
        exact absurd hd (by simp)
      have hc : c = l.getD e ' ' := by
        have h0 : (l.drop e).getD 0 ' ' = c := by rw [hd]; rfl
        rw [getD_drop] at h0
        simpa using h0.symm
      rw [takeWhileLen_cons, if_neg (by rw [hc, h]; simp)]
      omega

theorem scanBack_le (p : Char → Bool) (l : List Char) (s : Nat) : scanBack p l s ≤ s := by
  induction s with
  | zero => simp [scanBack]
  | succ m ih =>
    unfold scanBack
    split
    · omega
    · omega

theorem scanBack_pred (p : Char → Bool) (l : List Char) {s i : Nat}
    (h1 : scanBack p l s ≤ i) (h2 : i < s) : p (l.getD i ' ') = true := by
  induction s with
  | zero => omega
  | succ m ih =>
    by_cases hp : p (l.getD m ' ') = true
    · have he : scanBack p l (m + 1) = scanBack p l m := by
        rw [scanBack_succ_eq, if_pos hp]
      rw [he] at h1
      rcases Nat.lt_or_ge i m with him | him
      · exact ih h1 him
      · have hi : i = m := by omega
        subst hi
        exact hp
    · have he : scanBack p l (m + 1) = m + 1 := by
        rw [scanBack_succ_eq, if_neg hp]
      omega

theorem scanBack_stop (p : Char → Bool) (l : List Char) {s : Nat}
    (h : 0 < scanBack p l s) : p (l.getD (scanBack p l s - 1) ' ') = false := by
  induction s with
  | zero => simp [scanBack] at h
  | succ m ih =>
    by_cases hp : p (l.getD m ' ') = true
    · have he : scanBack p l (m + 1) = scanBack p l m := by
        rw [scanBack_succ_eq, if_pos hp]
      rw [he] at h ⊢
      exact ih h
    · have he : scanBack p l (m + 1) = m + 1 := by
        rw [scanBack_succ_eq, if_neg hp]
      rw [he]
      simp only [Nat.add_sub_cancel]
      rw [Bool.not_eq_true] at hp
      exact hp

theorem scanBack_step (p : Char → Bool) (l : List Char) {s : Nat}
    (h : p (l.getD s ' ') = true) : scanBack p l (s + 1) = scanBack p l s := by
  rw [scanBack_succ_eq, if_pos h]

theorem scanBack_fix (p : Char → Bool) (l : List Char) {s : Nat}
    (h : s = 0 ∨ p (l.getD (s - 1) ' ') = false) : scanBack p l s = s := by
  rcases h with h | h
  · subst h; rfl
  · cases s with
    | zero => rfl
    | succ m =>
      have hm : p (l.getD m ' ') = false := by simpa using h
      rw [scanBack_succ_eq, if_neg (by rw [hm]; simp)]

theorem scanBack_congr (p : Char → Bool) (l : List Char) {q s : Nat} (h1 : q ≤ s)
    (h3 : ∀ i, q ≤ i → i < s → p (l.getD i ' ') = true) :
    scanBack p l s = scanBack p l q := by
  induction s, h1 using Nat.le_induction with
  | base => rfl
  | succ n hn ih =>
    have hstep : scanBack p l (n + 1) = scanBack p l n :=
      scanBack_step p l (h3 n hn (by omega))
    rw [hstep]
    exact ih (fun i hi1 hi2 => h3 i hi1 (by omega))


/-! Characterisation of `find_word_boundaries`. -/

theorem wsNotNl_eq_true {c : Char} :
    wsNotNl c = true ↔ (isWhitespace c = true ∧ ¬ c = '\n') := by
  simp [wsNotNl]

theorem sameClass_eq_true {w : Bool} {c : Char} :
    sameClass w c = true ↔
      (¬ c = '\n' ∧ isWhitespace c = false ∧ Cursor.isWordChar c = w) := by
  simp [sameClass, and_assoc]

theorem fwb_empty (p : Nat) : Cursor.findWordBoundaries [] p = (0, 0) := rfl

theorem fwb_eq_of_inrange {l : List Char} {q : Nat} (hq : q < l.length) :
    Cursor.findWordBoundaries l q =
      (if l.getD q ' ' = '\n' then (q, q + 1)
       else if isWhitespace (l.getD q ' ') = true then
         (scanBack wsNotNl l q, scanFwd wsNotNl l (q + 1))
       else
         (scanBack (sameClass (Cursor.isWordChar (l.getD q ' '))) l q,
          scanFwd (sameClass (Cursor.isWordChar (l.getD q ' '))) l q)) := by
  have hne2 : ¬ (l.isEmpty = true) := by
    rw [List.isEmpty_iff]
    intro hh
    subst hh
    simp at hq
  have hmin : min q l.length = q := Nat.min_eq_left (Nat.le_of_lt hq)
  have hcond : ¬ (q = l.length ∧ 0 < q) := by omega
  have hq2 : ¬ (l.length ≤ q) := by omega
  simp only [Cursor.findWordBoundaries]
  rw [hmin, if_neg hne2, if_neg hcond, if_neg hq2]

theorem fwb_out_of_range {l : List Char} {p : Nat} (hne : l ≠ []) (hp : l.length ≤ p) :
    Cursor.findWordBoundaries l p = Cursor.findWordBoundaries l (l.length - 1) := by
  have hlen : 0 < l.length := List.length_pos.mpr hne
  have hq : l.length - 1 < l.length := by omega
  rw [fwb_eq_of_inrange hq]
  have hne2 : ¬ (l.isEmpty = true) := by rw [List.isEmpty_iff]; exact hne
  simp only [Cursor.findWordBoundaries]
  rw [Nat.min_eq_right hp, if_neg hne2,
    if_pos (show l.length = l.length ∧ 0 < l.length from ⟨rfl, hlen⟩),
    if_neg (show ¬ (l.length ≤ l.length - 1) by omega)]

theorem fwb_cases (l : List Char) {q : Nat} (hq : q < l.length) :
    (l.getD q ' ' = '\n' ∧ Cursor.findWordBoundaries l q = (q, q + 1)) ∨
    (¬ l.getD q ' ' = '\n' ∧ isWhitespace (l.getD q ' ') = true ∧
      Cursor.findWordBoundaries l q = (scanBack wsNotNl l q, scanFwd wsNotNl l (q + 1))) ∨
    (isWhitespace (l.getD q ' ') = false ∧
      Cursor.findWordBoundaries l q
        = (scanBack (sameClass (Cursor.isWordChar (l.getD q ' '))) l q,
           scanFwd (sameClass (Cursor.isWordChar (l.getD q ' '))) l q)) := by
  by_cases hnl : l.getD q ' ' = '\n'
  · exact Or.inl ⟨hnl, by rw [fwb_eq_of_inrange hq, if_pos hnl]⟩
  · by_cases hw : isWhitespace (l.getD q ' ') = true
    · exact Or.inr (Or.inl ⟨hnl, hw, by rw [fwb_eq_of_inrange hq, if_neg hnl, if_pos hw]⟩)
    · refine Or.inr (Or.inr ⟨by simpa using hw, ?_⟩)
      rw [fwb_eq_of_inrange hq, if_neg hnl, if_neg hw]

theorem fwb_idem_ws {l : List Char} {sp q : Nat} (hsp : sp < l.length)
    (hnl : ¬ l.getD sp ' ' = '\n') (hw : isWhitespace (l.getD sp ' ') = true)
    (h1 : scanBack wsNotNl l sp ≤ q) (h2 : q < scanFwd wsNotNl l (sp + 1)) :
    Cursor.findWordBoundaries l q
      = (scanBack wsNotNl l sp, scanFwd wsNotNl l (sp + 1)) := by
  have hsle : scanBack wsNotNl l sp ≤ sp := scanBack_le _ _ _
  have hee : sp + 1 ≤ scanFwd wsNotNl l (sp + 1) := scanFwd_ge _ _ _
  have hel : scanFwd wsNotNl l (sp + 1) ≤ l.length := scanFwd_le _ _ (by omega)
  have hall : ∀ i, scanBack wsNotNl l sp ≤ i → i < scanFwd wsNotNl l (sp + 1) →
      wsNotNl (l.getD i ' ') = true := by
    intro i hi1 hi2
    rcases Nat.lt_or_ge i sp with hlt | hge
    · exact scanBack_pred _ _ hi1 hlt
    · rcases Nat.eq_or_lt_of_le hge with heq | hgt
      · rw [← heq]
        rw [wsNotNl_eq_true]
        exact ⟨hw, hnl⟩
      · exact scanFwd_pred _ _ (by omega) hi2
  have hq : q < l.length := by omega
  have hwq := hall q h1 h2
  rw [wsNotNl_eq_true] at hwq
  obtain ⟨hwq1, hwq2⟩ := hwq
  rw [fwb_eq_of_inrange hq, if_neg hwq2, if_pos hwq1]
  have hback : scanBack wsNotNl l q = scanBack wsNotNl l sp := by
    have hcongr : scanBack wsNotNl l q = scanBack wsNotNl l (scanBack wsNotNl l sp) :=
      scanBack_congr _ _ h1 (fun i hi1 hi2 => hall i hi1 (by omega))
    rw [hcongr]
    apply scanBack_fix
    rcases Nat.eq_zero_or_pos (scanBack wsNotNl l sp) with h0 | h0
    · exact Or.inl h0
    · exact Or.inr (scanBack_stop _ _ h0)
  have hfwd : scanFwd wsNotNl l (q + 1) = scanFwd wsNotNl l (sp + 1) := by
    have hcongr : scanFwd wsNotNl l (q + 1) = scanFwd wsNotNl l (scanFwd wsNotNl l (sp + 1)) :=
      scanFwd_congr _ _ (by omega) hel (fun i hi1 hi2 => hall i (by omega) hi2)
    rw [hcongr]
    apply scanFwd_fix
    rcases Nat.lt_or_ge (scanFwd wsNotNl l (sp + 1)) l.length with hlt | hge2
    · exact Or.inr (scanFwd_stop _ _ hlt)
    · exact Or.inl hge2
  rw [hback, hfwd]

theorem fwb_idem_word {l : List Char} {sp q : Nat} {w : Bool} (hsp : sp < l.length)
    (hw : isWhitespace (l.getD sp ' ') = false)
    (hww : Cursor.isWordChar (l.getD sp ' ') = w)
    (h1 : scanBack (sameClass w) l sp ≤ q)
    (h2 : q < scanFwd (sameClass w) l sp) :
    Cursor.findWordBoundaries l q
      = (scanBack (sameClass w) l sp, scanFwd (sameClass w) l sp) := by
  have hnl : ¬ l.getD sp ' ' = '\n' := by
    intro hh
    rw [hh] at hw
    exact absurd hw (by decide)
  have hpsp : sameClass w (l.getD sp ' ') = true := by
    rw [sameClass_eq_true]
    exact ⟨hnl, hw, hww⟩
  have hsle : scanBack (sameClass w) l sp ≤ sp := scanBack_le _ _ _
  have hel : scanFwd (sameClass w) l sp ≤ l.length := scanFwd_le _ _ (by omega)
  have hall : ∀ i, scanBack (sameClass w) l sp ≤ i → i < scanFwd (sameClass w) l sp →
      sameClass w (l.getD i ' ') = true := by
    intro i hi1 hi2
    rcases Nat.lt_or_ge i sp with hlt | hge
    · exact scanBack_pred _ _ hi1 hlt
    · exact scanFwd_pred _ _ hge hi2
  have hq : q < l.length := by omega
  have hpq := hall q h1 h2
  rw [sameClass_eq_true] at hpq
  obtain ⟨hq1, hq2, hq3⟩ := hpq
  rw [fwb_eq_of_inrange hq, if_neg hq1, if_neg (by rw [hq2]; simp), hq3]
  have hback : scanBack (sameClass w) l q = scanBack (sameClass w) l sp := by
    have hcongr : scanBack (sameClass w) l q
        = scanBack (sameClass w) l (scanBack (sameClass w) l sp) :=
      scanBack_congr _ _ h1 (fun i hi1 hi2 => hall i hi1 (by omega))
    rw [hcongr]
    apply scanBack_fix
    rcases Nat.eq_zero_or_pos (scanBack (sameClass w) l sp) with h0 | h0
    · exact Or.inl h0
    · exact Or.inr (scanBack_stop _ _ h0)
  have hfwd : scanFwd (sameClass w) l q = scanFwd (sameClass w) l sp := by
    have hcongr : scanFwd (sameClass w) l q
        = scanFwd (sameClass w) l (scanFwd (sameClass w) l sp) :=
      scanFwd_congr _ _ (by omega) hel (fun i hi1 hi2 => hall i (by omega) hi2)
    rw [hcongr]
    apply scanFwd_fix
    rcases Nat.lt_or_ge (scanFwd (sameClass w) l sp) l.length with hlt | hge2
    · exact Or.inr (scanFwd_stop _ _ hlt)
    · exact Or.inl hge2
  rw [hback, hfwd]

theorem fwb_idem_inrange {l : List Char} {sp q : Nat} (hsp : sp < l.length)
    (h1 : (Cursor.findWordBoundaries l sp).1 ≤ q)
    (h2 : q < (Cursor.findWordBoundaries l sp).2) :
    Cursor.findWordBoundaries l q = Cursor.findWordBoundaries l sp := by
  rcases fwb_cases l hsp with ⟨hnl, heq⟩ | ⟨hnl, hw, heq⟩ | ⟨hw, heq⟩
  · rw [heq] at h1 h2 ⊢
    have h1' : sp ≤ q := h1
    have h2' : q < sp + 1 := h2
    have hqsp : q = sp := by omega
    subst hqsp
    rw [fwb_eq_of_inrange hsp, if_pos hnl]
  · rw [heq] at h1 h2 ⊢
    exact fwb_idem_ws hsp hnl hw h1 h2
  · rw [heq] at h1 h2 ⊢
    exact fwb_idem_word hsp hw rfl h1 h2

theorem fwb_idem_aux (l : List Char) (p q : Nat)
    (h1 : (Cursor.findWordBoundaries l p).1 ≤ q)
    (h2 : q < (Cursor.findWordBoundaries l p).2) :
    Cursor.findWordBoundaries l q = Cursor.findWordBoundaries l p := by
  by_cases hl : l = []
  · subst hl
    rw [fwb_empty, fwb_empty]
  · rcases Nat.lt_or_ge p l.length with hp | hp
    · exact fwb_idem_inrange hp h1 h2
    · rw [fwb_out_of_range hl hp] at h1 h2 ⊢
      have hlen : 0 < l.length := List.length_pos.mpr hl
      exact fwb_idem_inrange (by omega) h1 h2

theorem fwb_bounds_inrange {l : List Char} {sp : Nat} (hsp : sp < l.length) :
    (Cursor.findWordBoundaries l sp).1 ≤ sp ∧ sp < (Cursor.findWordBoundaries l sp).2 ∧
      (Cursor.findWordBoundaries l sp).2 ≤ l.length := by
  rcases fwb_cases l hsp with ⟨hnl, heq⟩ | ⟨hnl, hw, heq⟩ | ⟨hw, heq⟩
  · rw [heq]
    exact ⟨Nat.le_refl sp, Nat.lt_succ_self sp, show sp + 1 ≤ l.length by omega⟩
  · rw [heq]
    have h1 := scanBack_le wsNotNl l sp
    have h2 := scanFwd_ge wsNotNl l (sp + 1)
    have h3 := scanFwd_le wsNotNl l (show sp + 1 ≤ l.length by omega)
    exact ⟨h1, show sp < scanFwd wsNotNl l (sp + 1) by omega, h3⟩
  · rw [heq]
    have hnl : ¬ l.getD sp ' ' = '\n' := by
      intro hh
      rw [hh] at hw
      exact absurd hw (by decide)
    have hpsp : sameClass (Cursor.isWordChar (l.getD sp ' ')) (l.getD sp ' ') = true := by
      rw [sameClass_eq_true]
      exact ⟨hnl, hw, rfl⟩
    have h1 := scanBack_le (sameClass (Cursor.isWordChar (l.getD sp ' '))) l sp
    have h2 : sp + 1 ≤ scanFwd (sameClass (Cursor.isWordChar (l.getD sp ' '))) l sp := by
      rw [scanFwd_step _ _ hsp hpsp]
      exact scanFwd_ge _ _ _
    have h3 := scanFwd_le (sameClass (Cursor.isWordChar (l.getD sp ' '))) l
      (show sp ≤ l.length by omega)
    exact ⟨h1, show sp < scanFwd (sameClass (Cursor.isWordChar (l.getD sp ' '))) l sp by omega,
      h3⟩

theorem fwb_bounds_aux (l : List Char) (p : Nat) :
    (Cursor.findWordBoundaries l p).1 ≤ (Cursor.findWordBoundaries l p).2 ∧
    (Cursor.findWordBoundaries l p).2 ≤ l.length ∧
    ((Cursor.findWordBoundaries l p).1 = (Cursor.findWordBoundaries l p).2 → l = []) := by
  by_cases hl : l = []
  · subst hl
    rw [fwb_empty]
    simp
  · rcases Nat.lt_or_ge p l.length with hp | hp
    · have h := fwb_bounds_inrange hp
      exact ⟨by omega, h.2.2, fun hh => by omega⟩
    · rw [fwb_out_of_range hl hp]
      have hlen : 0 < l.length := List.length_pos.mpr hl
      have h := fwb_bounds_inrange (show l.length - 1 < l.length by omega)
      exact ⟨by omega, h.2.2, fun hh => by omega⟩

theorem fwb_fst_le (l : List Char) (p : Nat) : (Cursor.findWordBoundaries l p).1 ≤ p := by
  by_cases hl : l = []
  · subst hl
    rw [fwb_empty]
    simp
  · rcases Nat.lt_or_ge p l.length with hp | hp
    · have h := fwb_bounds_inrange hp
      omega
    · rw [fwb_out_of_range hl hp]
      have hlen : 0 < l.length := List.length_pos.mpr hl
      have h := fwb_bounds_inrange (show l.length - 1 < l.length by omega)
      omega


/-! Claim theorems about word segmentation. -/

/-- C7: segmentation is idempotent: if `find_word_boundaries l p` returns
`(start, end)`, then `find_word_boundaries l q` returns the same pair for every
position `q` with `start ≤ q < end`. -/
theorem C7_segmentation_idempotent (l : List Char) (p q : Nat)
    (h1 : (Cursor.findWordBoundaries l p).1 ≤ q)
    (h2 : q < (Cursor.findWordBoundaries l p).2) :
    Cursor.findWordBoundaries l q = Cursor.findWordBoundaries l p :=
  fwb_idem_aux l p q h1 h2

/-- Witness for C7: inside the word `"hello"` of `"hello world"`, position 4 lies in
the segment of position 2, and segmentation at 4 returns the same pair. -/
theorem C7_segmentation_idempotent_witness :
    Cursor.findWordBoundaries ("hello world").toList 4
      = Cursor.findWordBoundaries ("hello world").toList 2 :=
  C7_segmentation_idempotent ("hello world").toList 2 4 (by decide) (by decide)

/-- C10: for every buffer and every position (also past the end), the returned
segment satisfies `0 ≤ start ≤ end ≤ length`, and is empty only on the empty
buffer. -/
theorem C10_segment_bounds (l : List Char) (p : Nat) :
    (Cursor.findWordBoundaries l p).1 ≤ (Cursor.findWordBoundaries l p).2 ∧
    (Cursor.findWordBoundaries l p).2 ≤ l.length ∧
    ((Cursor.findWordBoundaries l p).1 = (Cursor.findWordBoundaries l p).2 → l = []) :=
  fwb_bounds_aux l p

/-- Witness for C10 at the buffer `"a"` and the out-of-range position 5. -/
theorem C10_segment_bounds_witness :
    (Cursor.findWordBoundaries ['a'] 5).1 ≤ (Cursor.findWordBoundaries ['a'] 5).2 ∧
    (Cursor.findWordBoundaries ['a'] 5).2 ≤ 1 ∧
    ((Cursor.findWordBoundaries ['a'] 5).1 = (Cursor.findWordBoundaries ['a'] 5).2 →
      ['a'] = ([] : List Char)) :=
  C10_segment_bounds ['a'] 5

/-- C6: in the five-character buffer glyph/space/glyph/space/glyph, repeated
`move_word_right` from 0 visits exactly 1, 2, 3, 4, 5 in that order; and in
general whitespace is a hard separator (a segment never extends past a directly
following whitespace character) while directly adjacent non-whitespace characters
of the same word/non-word class share one segment. -/
theorem C6_emoji_whitespace_segmentation :
    (Cursor.moveWordRight ⟨0, CursorGoal.none⟩ ("🗿 🗿 🗿").toList
        = ⟨1, CursorGoal.none⟩ ∧
     Cursor.moveWordRight ⟨1, CursorGoal.none⟩ ("🗿 🗿 🗿").toList
        = ⟨2, CursorGoal.none⟩ ∧
     Cursor.moveWordRight ⟨2, CursorGoal.none⟩ ("🗿 🗿 🗿").toList
        = ⟨3, CursorGoal.none⟩ ∧
     Cursor.moveWordRight ⟨3, CursorGoal.none⟩ ("🗿 🗿 🗿").toList
        = ⟨4, CursorGoal.none⟩ ∧
     Cursor.moveWordRight ⟨4, CursorGoal.none⟩ ("🗿 🗿 🗿").toList
        = ⟨5, CursorGoal.none⟩) ∧
    (∀ (l : List Char) (i : Nat), i + 1 < l.length →
      isWhitespace (l.getD i ' ') = false → isWhitespace (l.getD (i + 1) ' ') = true →
      (Cursor.findWordBoundaries l i).2 = i + 1) ∧
    (∀ (l : List Char) (i : Nat), i + 1 < l.length →
      isWhitespace (l.getD i ' ') = false → isWhitespace (l.getD (i + 1) ' ') = false →
      Cursor.isWordChar (l.getD i ' ') = Cursor.isWordChar (l.getD (i + 1) ' ') →
      Cursor.findWordBoundaries l (i + 1) = Cursor.findWordBoundaries l i) := by
  refine ⟨⟨by decide, by decide, by decide, by decide, by decide⟩, ?_, ?_⟩
  · intro l i hlen hws1 hws2
    have hi : i < l.length := by omega
    rcases fwb_cases l hi with ⟨hnl, heq⟩ | ⟨hnl', hw', heq⟩ | ⟨hw, heq⟩
    · rw [hnl] at hws1
      exact absurd hws1 (by decide)
    · rw [hws1] at hw'
      exact absurd hw' (by simp)
    · have hnl : ¬ l.getD i ' ' = '\n' := by
        intro hh
        rw [hh] at hws1
        exact absurd hws1 (by decide)
      have hpred_i : sameClass (Cursor.isWordChar (l.getD i ' ')) (l.getD i ' ') = true := by
        rw [sameClass_eq_true]
        exact ⟨hnl, hws1, rfl⟩
      have hstep := scanFwd_step (sameClass (Cursor.isWordChar (l.getD i ' '))) l hi hpred_i
      have hfix : scanFwd (sameClass (Cursor.isWordChar (l.getD i ' '))) l (i + 1) = i + 1 := by
        apply scanFwd_fix
        right
        unfold sameClass
        rw [hws2]
        simp
      rw [heq]
      show scanFwd (sameClass (Cursor.isWordChar (l.getD i ' '))) l i = i + 1
      rw [hstep, hfix]
  · intro l i hlen hws1 hws2 hclass
    have hi : i < l.length := by omega
    have hb := fwb_bounds_inrange hi
    rcases fwb_cases l hi with ⟨hnl, heq⟩ | ⟨hnl', hw', heq⟩ | ⟨hw, heq⟩
    · rw [hnl] at hws1
      exact absurd hws1 (by decide)
    · rw [hws1] at hw'
      exact absurd hw' (by simp)
    · have hnl : ¬ l.getD i ' ' = '\n' := by
        intro hh
        rw [hh] at hws1
        exact absurd hws1 (by decide)
      have hnl2 : ¬ l.getD (i + 1) ' ' = '\n' := by
        intro hh
        rw [hh] at hws2
        exact absurd hws2 (by decide)
      have hpred_i : sameClass (Cursor.isWordChar (l.getD i ' ')) (l.getD i ' ') = true := by
        rw [sameClass_eq_true]
        exact ⟨hnl, hws1, rfl⟩
      have hpred_i1 : sameClass (Cursor.isWordChar (l.getD i ' ')) (l.getD (i + 1) ' ')
          = true := by
        rw [sameClass_eq_true]
        exact ⟨hnl2, hws2, hclass.symm⟩
      have hstep1 := scanFwd_step (sameClass (Cursor.isWordChar (l.getD i ' '))) l hi hpred_i
      have hstep2 := scanFwd_step (sameClass (Cursor.isWordChar (l.getD i ' '))) l
        (show i + 1 < l.length by omega) hpred_i1
      have hge := scanFwd_ge (sameClass (Cursor.isWordChar (l.getD i ' '))) l (i + 1 + 1)
      have h2 : i + 1 < (Cursor.findWordBoundaries l i).2 := by
        rw [heq]
        show i + 1 < scanFwd (sameClass (Cursor.isWordChar (l.getD i ' '))) l i
        omega
      exact fwb_idem_inrange hi (by omega) h2

/-- Witness for C6's general statements: a space after `"a"` ends its segment at the
space, and two directly adjacent punctuation characters share one segment. -/
theorem C6_emoji_whitespace_segmentation_witness :
    (Cursor.findWordBoundaries ['a', ' '] 0).2 = 1 ∧
    Cursor.findWordBoundaries ['.', ','] 1 = Cursor.findWordBoundaries ['.', ','] 0 := by
  constructor
  · exact C6_emoji_whitespace_segmentation.2.1 ['a', ' '] 0 (by decide) (by decide) (by decide)
  · exact C6_emoji_whitespace_segmentation.2.2 ['.', ','] 0 (by decide) (by decide) (by decide)
      (by decide)


/-! Sticky-column characterisation of `move_up` / `move_down`. -/

theorem TextBuffer.charToLineCol_fst_le (l : List Char) (i : Nat) :
    (TextBuffer.charToLineCol l i).1 ≤ TextBuffer.countNl l := by
  simp only [TextBuffer.charToLineCol, TextBuffer.charToLine]
  exact TextBuffer.countNl_take_le l _

theorem Cursor.moveDown_eq_of_lt {l : List Char} {cur : Cursor} {line col : Nat}
    (hlc : TextBuffer.charToLineCol l cur.index = (line, col))
    (hlt : line + 1 < TextBuffer.lenLines l) :
    cur.moveDown l =
      { index := TextBuffer.lineColToChar l (line + 1)
          (min (cur.goal.resolve col) (lineDisplayLen l (line + 1))),
        goal := CursorGoal.column (cur.goal.resolve col) } := by
  unfold Cursor.moveDown
  simp only [hlc]
  rw [if_pos (show line < TextBuffer.lenLines l - 1 by omega)]

theorem Cursor.moveUp_eq_of_pos {l : List Char} {cur : Cursor} {line col : Nat}
    (hlc : TextBuffer.charToLineCol l cur.index = (line, col))
    (hpos : 0 < line) :
    cur.moveUp l =
      { index := TextBuffer.lineColToChar l (line - 1)
          (min (cur.goal.resolve col) (lineDisplayLen l (line - 1))),
        goal := CursorGoal.column (cur.goal.resolve col) } := by
  unfold Cursor.moveUp
  simp only [hlc]
  rw [if_pos (show 0 < line from hpos)]

/-- C4: `move_up`/`move_down` implement sticky columns: the effective target column is
the stored goal column if set, else the current column; the landing column (read back
through `char_to_line_col`) is the target clamped by the destination line length; the
goal is set to the original, pre-clamp target; and in
`"hello world\nhi\nhello again"` from index 8 two `move_down`s land at index 23
(column 8 of `"hello again"`) with goal column 8. -/
theorem C4_sticky_column :
    (∀ (l : List Char) (cur : Cursor) (line col : Nat),
      TextBuffer.charToLineCol l cur.index = (line, col) →
      line + 1 < TextBuffer.lenLines l →
      (cur.moveDown l).goal = CursorGoal.column (cur.goal.resolve col) ∧
      TextBuffer.charToLineCol l (cur.moveDown l).index
        = (line + 1, min (cur.goal.resolve col) (lineDisplayLen l (line + 1)))) ∧
    (∀ (l : List Char) (cur : Cursor) (line col : Nat),
      TextBuffer.charToLineCol l cur.index = (line, col) →
      0 < line →
      (cur.moveUp l).goal = CursorGoal.column (cur.goal.resolve col) ∧
      TextBuffer.charToLineCol l (cur.moveUp l).index
        = (line - 1, min (cur.goal.resolve col) (lineDisplayLen l (line - 1)))) ∧
    Cursor.moveDown (Cursor.moveDown ⟨8, CursorGoal.none⟩
        ("hello world\nhi\nhello again").toList) ("hello world\nhi\nhello again").toList
      = ⟨23, CursorGoal.column 8⟩ := by
  refine ⟨?_, ?_, by decide⟩
  · intro l cur line col hlc hlt
    rw [Cursor.moveDown_eq_of_lt hlc hlt]
    refine ⟨rfl, ?_⟩
    have hn : line + 1 ≤ TextBuffer.countNl l := by
      unfold TextBuffer.lenLines at hlt
      omega
    exact TextBuffer.charToLineCol_lineColToChar l hn (Nat.min_le_right _ _)
  · intro l cur line col hlc hpos
    rw [Cursor.moveUp_eq_of_pos hlc hpos]
    refine ⟨rfl, ?_⟩
    have hlinele : line ≤ TextBuffer.countNl l := by
      have h1 := TextBuffer.charToLineCol_fst_le l cur.index
      rw [hlc] at h1
      exact h1
    have hn : line - 1 ≤ TextBuffer.countNl l := by omega
    exact TextBuffer.charToLineCol_lineColToChar l hn (Nat.min_le_right _ _)

/-- Witness for C4: one `move_down` on `"ab\ncd"` from index 1 lands on line 1,
column 1, with goal column 1. -/
theorem C4_sticky_column_witness :
    (Cursor.moveDown ⟨1, CursorGoal.none⟩ ("ab\ncd").toList).goal = CursorGoal.column 1 ∧
    TextBuffer.charToLineCol ("ab\ncd").toList
        (Cursor.moveDown ⟨1, CursorGoal.none⟩ ("ab\ncd").toList).index = (1, 1) :=
  C4_sticky_column.1 ("ab\ncd").toList ⟨1, CursorGoal.none⟩ 0 1 (by decide) (by decide)


/-! Characterisation of `move_word_left` and `delete_word`. -/

theorem TextBuffer.lineColToChar_zero_col (l : List Char) {n : Nat}
    (hn : n ≤ TextBuffer.countNl l) :
    TextBuffer.lineColToChar l n 0 = TextBuffer.lineToChar l n := by
  rcases Nat.lt_or_ge n (TextBuffer.countNl l) with hlt | hge
  · rw [TextBuffer.lineColToChar_eq_of_lt l hlt]
    have := TextBuffer.lineToChar_mono l (show n ≤ n + 1 by omega)
    omega
  · have heq : n = TextBuffer.countNl l := by omega
    subst heq
    rw [TextBuffer.lineColToChar_eq_last]
    have := TextBuffer.lineToChar_le_len l (TextBuffer.countNl l)
    omega

theorem TextBuffer.col_zero_prev_nl (l : List Char) {i : Nat} (h0 : 0 < i)
    (hle : i ≤ l.length) (hcol : (TextBuffer.charToLineCol l i).2 = 0) :
    l.getD (i - 1) ' ' = '\n' := by
  rw [TextBuffer.charToLineCol_snd l hle] at hcol
  have hls := TextBuffer.lineStart_le l hle
  have hieq : i = TextBuffer.lineToChar l (TextBuffer.countNl (l.take i)) := by omega
  cases hn : TextBuffer.countNl (l.take i) with
  | zero =>
    rw [hn, TextBuffer.lineToChar_zero] at hieq
    omega
  | succ m =>
    rw [hn] at hieq
    have hm : m < TextBuffer.countNl l := by
      have h2 := TextBuffer.countNl_take_le l i
      omega
    obtain ⟨k, hk1, hk2, hk3⟩ := TextBuffer.lineToChar_succ_spec l hm
    rw [hk1] at hieq
    have hik : i - 1 = k := by omega
    rw [hik]
    exact hk3

theorem TextBuffer.delete_eq_take_drop {l : List Char} {d i : Nat} (h1 : d ≤ i)
    (h2 : i ≤ l.length) : TextBuffer.delete l d (i - d) = l.take d ++ l.drop i := by
  unfold TextBuffer.delete
  have hmin : min (d + (i - d)) l.length = i := by omega
  rw [hmin]

theorem Cursor.moveWordLeft_eq {l : List Char} {cur : Cursor} {line col : Nat}
    (hlc : TextBuffer.charToLineCol l cur.index = (line, col))
    (h0 : 0 < cur.index) (hle : cur.index ≤ l.length) :
    cur.moveWordLeft l =
      { index := if 0 < col
          then max (Cursor.findWordBoundaries l (cur.index - 1)).1
                   (TextBuffer.lineColToChar l line 0)
          else (Cursor.findWordBoundaries l (cur.index - 1)).1,
        goal := CursorGoal.none } := by
  unfold Cursor.moveWordLeft
  rw [if_neg (show ¬ cur.index = 0 by omega),
      if_neg (show ¬ l.length < cur.index by omega),
      if_neg (show ¬ l.isEmpty = true by
        rw [List.isEmpty_iff]
        intro hh
        subst hh
        simp at hle
        omega)]
  simp only [hlc]

/-- C5: `delete_word` deletes from the word-left boundary up to the original cursor
position, never reaching left of the line start when the column is positive; when the
column is 0 it deletes exactly the preceding newline; the cursor ends at the deletion
start; and the two concrete `"line1\nline2\nline3"` steps behave as specified. -/
theorem C5_delete_word :
    (∀ (ed : Editor) (line col : Nat),
      TextBuffer.charToLineCol ed.buffer ed.cursor.index = (line, col) →
      0 < ed.cursor.index → ed.cursor.index ≤ ed.buffer.length →
      ed.deleteWord.cursor.index ≤ ed.cursor.index ∧
      ed.deleteWord.buffer
        = ed.buffer.take ed.deleteWord.cursor.index ++ ed.buffer.drop ed.cursor.index ∧
      (0 < col → TextBuffer.lineToChar ed.buffer line ≤ ed.deleteWord.cursor.index) ∧
      (col = 0 → ed.deleteWord.cursor.index = ed.cursor.index - 1 ∧
        ed.deleteWord.buffer
          = ed.buffer.take (ed.cursor.index - 1) ++ ed.buffer.drop ed.cursor.index)) ∧
    (Editor.deleteWord ⟨("line1\nline2\nline3").toList, ⟨17, CursorGoal.none⟩,
        Option.none⟩).buffer = ("line1\nline2\n").toList ∧
    (Editor.deleteWord ⟨("line1\nline2\nline3").toList, ⟨17, CursorGoal.none⟩,
        Option.none⟩).cursor.index = 12 ∧
    (Editor.deleteWord (Editor.deleteWord ⟨("line1\nline2\nline3").toList,
        ⟨17, CursorGoal.none⟩, Option.none⟩)).buffer = ("line1\nline2").toList ∧
    (Editor.deleteWord (Editor.deleteWord ⟨("line1\nline2\nline3").toList,
        ⟨17, CursorGoal.none⟩, Option.none⟩)).cursor.index = 11 := by
  refine ⟨?_, by decide, by decide, by decide, by decide⟩
  intro ed line col hlc h0 hle
  have hml := Cursor.moveWordLeft_eq hlc h0 hle
  have hs_le : (Cursor.findWordBoundaries ed.buffer (ed.cursor.index - 1)).1
      ≤ ed.cursor.index - 1 := fwb_fst_le ed.buffer (ed.cursor.index - 1)
  have hfst := TextBuffer.charToLineCol_fst ed.buffer hle
  have hsnd := TextBuffer.charToLineCol_snd ed.buffer hle
  rw [hlc] at hfst hsnd
  have hline : line = TextBuffer.countNl (ed.buffer.take ed.cursor.index) := hfst
  have hcol : col = ed.cursor.index -
      TextBuffer.lineToChar ed.buffer (TextBuffer.countNl (ed.buffer.take ed.cursor.index)) :=
    hsnd
  rw [← hline] at hcol
  have hls_le : TextBuffer.lineToChar ed.buffer line ≤ ed.cursor.index := by
    rw [hline]
    exact TextBuffer.lineStart_le ed.buffer hle
  have hlinele : line ≤ TextBuffer.countNl ed.buffer := by
    rw [hline]
    exact TextBuffer.countNl_take_le ed.buffer ed.cursor.index
  have hlz : TextBuffer.lineColToChar ed.buffer line 0 = TextBuffer.lineToChar ed.buffer line :=
    TextBuffer.lineColToChar_zero_col ed.buffer hlinele
  by_cases hc0 : col = 0
  · subst hc0
    have hprev : ed.buffer.getD (ed.cursor.index - 1) ' ' = '\n' :=
      TextBuffer.col_zero_prev_nl ed.buffer h0 hle (by rw [hlc])
    have hfwb : Cursor.findWordBoundaries ed.buffer (ed.cursor.index - 1)
        = (ed.cursor.index - 1, ed.cursor.index - 1 + 1) := by
      rw [fwb_eq_of_inrange (show ed.cursor.index - 1 < ed.buffer.length by omega),
        if_pos hprev]
    have hsval : (Cursor.findWordBoundaries ed.buffer (ed.cursor.index - 1)).1
        = ed.cursor.index - 1 := by rw [hfwb]
    have hml0 : ed.cursor.moveWordLeft ed.buffer
        = { index := ed.cursor.index - 1, goal := CursorGoal.none } := by
      rw [hml, if_neg (show ¬ (0 : Nat) < 0 by omega), hsval]
    have hdw : ed.deleteWord =
        { buffer := TextBuffer.delete ed.buffer (ed.cursor.index - 1)
            (ed.cursor.index - (ed.cursor.index - 1)),
          cursor := { index := ed.cursor.index - 1, goal := CursorGoal.none },
          selection := ed.selection } := by
      unfold Editor.deleteWord
      rw [if_neg (show ¬ ed.cursor.index = 0 by omega)]
      simp only [hlc, hml0]
      simp
    rw [hdw]
    dsimp only
    have hbuf : TextBuffer.delete ed.buffer (ed.cursor.index - 1)
        (ed.cursor.index - (ed.cursor.index - 1))
        = ed.buffer.take (ed.cursor.index - 1) ++ ed.buffer.drop ed.cursor.index :=
      TextBuffer.delete_eq_take_drop (by omega) hle
    refine ⟨by omega, hbuf, ?_, fun _ => ⟨rfl, hbuf⟩⟩
    intro hpos
    exact absurd hpos (by omega)
  · have hcpos : 0 < col := by omega
    have hlslt : TextBuffer.lineToChar ed.buffer line ≤ ed.cursor.index - 1 := by omega
    set D := max (Cursor.findWordBoundaries ed.buffer (ed.cursor.index - 1)).1
      (TextBuffer.lineColToChar ed.buffer line 0) with hD
    have hml1 : ed.cursor.moveWordLeft ed.buffer
        = { index := D, goal := CursorGoal.none } := by
      rw [hml, if_pos hcpos]
    have hdw : ed.deleteWord =
        { buffer := TextBuffer.delete ed.buffer (max D (TextBuffer.lineColToChar ed.buffer line 0)) (ed.cursor.index - max D (TextBuffer.lineColToChar ed.buffer line 0)),
          cursor := { index := max D (TextBuffer.lineColToChar ed.buffer line 0), goal := CursorGoal.none },
          selection := ed.selection } := by
      unfold Editor.deleteWord
      rw [if_neg (show ¬ ed.cursor.index = 0 by omega)]
      simp only [hlc, hml1]
      rw [if_neg hc0]
    rw [hdw]
    dsimp only
    have hd_le : max D (TextBuffer.lineColToChar ed.buffer line 0) ≤ ed.cursor.index := by
      omega
    have hbuf := TextBuffer.delete_eq_take_drop hd_le hle
    refine ⟨hd_le, hbuf, fun _ => by omega, ?_⟩
    intro hzero
    exact absurd hzero hc0


/-- Witness for C5's general statement on `"hello world"` with the cursor at 11:
`delete_word` ends at the deletion start, removes a suffix of the current line, and
stays right of the line start. -/
theorem C5_delete_word_witness :
    (Editor.deleteWord ⟨("hello world").toList, ⟨11, CursorGoal.none⟩,
        Option.none⟩).cursor.index ≤ 11 ∧
    (Editor.deleteWord ⟨("hello world").toList, ⟨11, CursorGoal.none⟩, Option.none⟩).buffer
      = ("hello world").toList.take (Editor.deleteWord ⟨("hello world").toList,
          ⟨11, CursorGoal.none⟩, Option.none⟩).cursor.index
        ++ ("hello world").toList.drop 11 ∧
    (0 < 11 → TextBuffer.lineToChar ("hello world").toList 0
        ≤ (Editor.deleteWord ⟨("hello world").toList, ⟨11, CursorGoal.none⟩,
            Option.none⟩).cursor.index) ∧
    ((11 : Nat) = 0 → (Editor.deleteWord ⟨("hello world").toList, ⟨11, CursorGoal.none⟩,
        Option.none⟩).cursor.index = 11 - 1 ∧
      (Editor.deleteWord ⟨("hello world").toList, ⟨11, CursorGoal.none⟩, Option.none⟩).buffer
        = ("hello world").toList.take (11 - 1) ++ ("hello world").toList.drop 11) :=
  C5_delete_word.1 ⟨("hello world").toList, ⟨11, CursorGoal.none⟩, Option.none⟩ 0 11
    (by decide) (by decide) (by decide)

/-! Selection invariant (C3). -/

theorem Editor.deleteSelection_selection_none (ed : Editor) :
    (ed.deleteSelection).2.selection = Option.none := by
  unfold Editor.deleteSelection
  cases hsel : ed.selection with
  | none => exact hsel
  | some sel => rfl

theorem Editor.foldl_insertChar_selection (text : List Char) (e : Editor) :
    (text.foldl (fun acc c => acc.insertChar c) e).selection = e.selection := by
  induction text generalizing e with
  | nil => rfl
  | cons c t ih =>
    rw [List.foldl_cons, ih]
    rfl

theorem Editor.paste_selection_none (ed : Editor) (text : List Char) :
    (ed.paste text).selection = Option.none := by
  unfold Editor.paste
  rw [Editor.foldl_insertChar_selection]
  by_cases hs : ed.selection.isSome = true
  · rw [if_pos hs]
    exact Editor.deleteSelection_selection_none ed
  · rw [if_neg hs]
    rw [Option.not_isSome_iff_eq_none] at hs
    exact hs

/-- C3 counterexample: `select_range` performs no clamping, so the claimed invariant
`start ≤ end ≤ buffer.len()` fails right after `select_range 0 1` on the empty
editor: the selection is `[0, 1)` while the buffer length is 0. -/
theorem C3_selection_invariant_counterexample :
    (Editor.selectRange Editor.new 0 1).selection = some ⟨0, 1, false⟩ ∧
    (Editor.selectRange Editor.new 0 1).buffer.length = 0 ∧
    ¬ (∀ sel : Selection, (Editor.selectRange Editor.new 0 1).selection = some sel →
        sel.start ≤ sel.stop ∧ sel.stop ≤ (Editor.selectRange Editor.new 0 1).buffer.length) := by
  refine ⟨by decide, by decide, ?_⟩
  intro h
  have h2 := h ⟨0, 1, false⟩ (by decide)
  exact absurd h2.2 (by decide)

/-- C3 amended: the invariant `0 ≤ start ≤ end ≤ buffer.len()` holds for every
selection produced by `select_range` whose arguments are within the buffer and by
`select_all`; it is preserved by `insert_char` from an in-bounds cursor; and
`delete_selection` and `paste` always leave no selection at all.  As stated the claim
fails, because `select_range` does not clamp out-of-range arguments. -/
theorem C3_selection_invariant_amended :
    (∀ (ed : Editor) (a b : Nat), a ≤ ed.buffer.length → b ≤ ed.buffer.length →
      ∀ sel : Selection, (ed.selectRange a b).selection = some sel →
        sel.start ≤ sel.stop ∧ sel.stop ≤ (ed.selectRange a b).buffer.length) ∧
    (∀ ed : Editor, ∀ sel : Selection, ed.selectAll.selection = some sel →
        sel.start ≤ sel.stop ∧ sel.stop ≤ ed.selectAll.buffer.length) ∧
    (∀ ed : Editor, (ed.deleteSelection).2.selection = Option.none) ∧
    (∀ (ed : Editor) (text : List Char), (ed.paste text).selection = Option.none) ∧
    (∀ (ed : Editor) (c : Char) (sel : Selection), ed.cursor.index ≤ ed.buffer.length →
      ed.selection = some sel → sel.start ≤ sel.stop → sel.stop ≤ ed.buffer.length →
      (ed.insertChar c).selection = some sel ∧
      sel.start ≤ sel.stop ∧ sel.stop ≤ (ed.insertChar c).buffer.length) := by
  refine ⟨?_, ?_, Editor.deleteSelection_selection_none, Editor.paste_selection_none, ?_⟩
  · intro ed a b ha hb sel hsel
    have he : (ed.selectRange a b).selection = some (Selection.new a b) := rfl
    rw [he] at hsel
    have hs2 := Option.some.inj hsel
    subst hs2
    constructor
    · show min a b ≤ max a b
      omega
    · show max a b ≤ ed.buffer.length
      omega
  · intro ed sel hsel
    have he : ed.selectAll.selection = some (Selection.new 0 ed.buffer.length) := rfl
    rw [he] at hsel
    have hs2 := Option.some.inj hsel
    subst hs2
    constructor
    · show min 0 ed.buffer.length ≤ max 0 ed.buffer.length
      omega
    · show max 0 ed.buffer.length ≤ ed.buffer.length
      omega
  · intro ed c sel hcur hsel h1 h2
    refine ⟨hsel, h1, ?_⟩
    have hlen : (ed.insertChar c).buffer.length = ed.buffer.length + 1 := by
      show (TextBuffer.insertChar ed.buffer ed.cursor.index c).length = _
      unfold TextBuffer.insertChar
      rw [List.length_append, List.length_take]
      simp
      omega
    omega

/-- Witness for C3's amended statement: `select_range 1 4` on `"hello"` yields the
well-formed selection `[1, 4)` with `4 ≤ 5`. -/
theorem C3_selection_invariant_amended_witness :
    (1 : Nat) ≤ 4 ∧
    (4 : Nat) ≤ (Editor.selectRange ⟨("hello").toList, ⟨0, CursorGoal.none⟩,
        Option.none⟩ 1 4).buffer.length :=
  C3_selection_invariant_amended.1 ⟨("hello").toList, ⟨0, CursorGoal.none⟩, Option.none⟩ 1 4
    (by decide) (by decide) ⟨1, 4, false⟩ (by decide)

end Rediff
